import Mathlib

/-!
Verification development for the quadtree spatial index in `src/quadtree.rs`.

The Rust code is shallowly embedded: `f32` coordinates are modelled as `ℚ`
(the example inputs are exact decimals and none of the settled claims hinges
on rounding), `Entity` identifiers as `Nat`, and the pointer-linked mutable
tree as a functional tree addressed by paths (lists of child indices from
the root).  Rust's non-owning parent pointer corresponds to dropping the
last path component; pointer identity of nodes corresponds to path
identity.  Panicking operations are modelled by explicit abort values.
-/

/- The Batteries rational arithmetic is `@[irreducible]`, which blocks the
`decide` evaluations of the concrete states below; restore the default
reducibility for this file. -/
attribute [local semireducible] Rat.add Rat.mul Rat.inv Rat.sub

/-- Model of `Position` from `main.rs`: a 2-d point. -/
structure Position where
  x : ℚ
  y : ℚ
deriving DecidableEq

/-- Model of `Bounds` from `quadtree.rs`: origin plus edge length of a square. -/
structure Bounds where
  pos : Position
  size : ℚ
deriving DecidableEq

/-- Rust `f32::signum` restricted to the values reachable here: it returns
`1.0` for positive zero, so the embedding maps nonnegative inputs to `1`. -/
def rustSignum (q : ℚ) : ℚ := if q < 0 then -1 else 1

/-- Model of `Bounds::split`: the quadrant `idx` (0–3) of a square: halve the size,
offset by the halved size on x for odd `idx` and on y for `idx ≥ 2`. -/
def Bounds.split (b : Bounds) (idx : Nat) : Bounds :=
  let s := b.size * (1/2 : ℚ)
  { pos := { x := b.pos.x + (if idx % 2 = 1 then s else 0),
             y := b.pos.y + (if 2 ≤ idx then s else 0) },
    size := s }

/-- Model of `Bounds::min_sq_dist` exactly as written in the source: it picks the
corner of the square nearest to the target (via `signum`) and returns the
squared distance to that corner.  There is no clamping to zero on an axis
where the target lies inside the span. -/
def Bounds.min_sq_dist (b : Bounds) (target : Position) : ℚ :=
  let half_size := b.size * (1/2 : ℚ)
  let center_x := b.pos.x + half_size
  let corner_x := center_x + half_size * rustSignum (target.x - center_x)
  let center_y := b.pos.y + half_size
  let corner_y := center_y + half_size * rustSignum (target.y - center_y)
  let delta_x := corner_x - target.x
  let delta_y := corner_y - target.y
  delta_x * delta_x + delta_y * delta_y

/-- Model of `QuadtreeNode`: bounds, children (0 or 4 in well-formed states) and the
member list.  The parent pointer of the Rust struct is represented by the
path addressing used below, not stored in the node. -/
inductive QNode : Type where
  | mk : Bounds → List QNode → List (Nat × Bounds) → QNode

def QNode.bounds : QNode → Bounds
  | .mk b _ _ => b

def QNode.children : QNode → List QNode
  | .mk _ c _ => c

def QNode.members : QNode → List (Nat × Bounds)
  | .mk _ _ m => m

/-- Replace the member list of a node, keeping bounds and children. -/
def QNode.withMembers : QNode → List (Nat × Bounds) → QNode
  | .mk b c _, m => .mk b c m

/-- Apply `f` to the element at index `i`, if any. -/
def modifyIdx (f : α → α) : List α → Nat → List α
  | [], _ => []
  | a :: l, 0 => f a :: l
  | a :: l, i + 1 => a :: modifyIdx f l i

/-- The node reached from `n` by following a path of child indices. -/
def nodeAt : QNode → List Nat → Option QNode
  | n, [] => some n
  | n, i :: p =>
    match n.children[i]? with
    | some c => nodeAt c p
    | none => none

/-- Rewrite the node at a path with `f` (identity off the path and when the
path dangles, which is unreachable from the Rust pointers). -/
def updateAt : List Nat → (QNode → QNode) → QNode → QNode
  | [], f, n => f n
  | i :: p, f, .mk b c m => .mk b (modifyIdx (updateAt p f) c i) m

/-- A node rewrite that only touches the member list. -/
def updateMembers (f : List (Nat × Bounds) → List (Nat × Bounds)) : QNode → QNode :=
  fun n => n.withMembers (f n.members)

/-- Model of `QuadtreeNode::find`: index of the first member whose entity matches. -/
def findEntityIdx (e : Nat) : List (Nat × Bounds) → Option Nat
  | [] => none
  | (e', _) :: rest => if e' = e then some 0 else (findEntityIdx e rest).map (· + 1)

/-- Model of `Vec::swap_remove i`: overwrite slot `i` with the last element, drop the
last slot. -/
def swapRemove (ms : List α) (i : Nat) : List α :=
  match ms.getLast? with
  | none => []
  | some la => (ms.set i la).dropLast

/-- The member-list effect of `Quadtree::_remove` at the found node: swap
remove the first entity match, if any. -/
def swapRemoveEntity (e : Nat) (ms : List (Nat × Bounds)) : List (Nat × Bounds) :=
  match findEntityIdx e ms with
  | some i => swapRemove ms i
  | none => ms

/-- Model of `QuadtreeNode::find_node` as the path it descends (the Rust function
returns the node; the path also records which children were taken).  The
comparisons follow the source: a node with children computes the midlines;
`mid < pos` sends the extent right/top, otherwise `mid < pos + size` stops
at the current node, otherwise the extent goes left/bottom.  The source
indexes `children[idx]` for `idx < 4`, so only the first four children
matter; the catch-all arm covers leaves (stop, as in the source) and the
1–3-children states the source debug-asserts against. -/
def findNodePath (n : QNode) (b : Bounds) : List Nat :=
  match n with
  | .mk nb (c0 :: c1 :: c2 :: c3 :: _) _ =>
    let half := nb.size * (1/2 : ℚ)
    let midx := nb.pos.x + half
    let midy := nb.pos.y + half
    if midx < b.pos.x then
      if midy < b.pos.y then 3 :: findNodePath c3 b
      else if midy < b.pos.y + b.size then []
      else 1 :: findNodePath c1 b
    else if midx < b.pos.x + b.size then []
    else if midy < b.pos.y then 2 :: findNodePath c2 b
    else if midy < b.pos.y + b.size then []
    else 0 :: findNodePath c0 b
  | .mk _ _ _ => []

/-- Drop all children of a node (`children.clear()`), keeping its members. -/
def clearChildren : QNode → QNode
  | .mk b _ m => .mk b [] m

/-- The collapse test of `QuadtreeNode::remove`: every child is
simultaneously childless and memberless. -/
def allChildrenEmpty (n : QNode) : Bool :=
  n.children.all (fun c => c.children.isEmpty && c.members.isEmpty)

/-- Helper for `mergeWalk`: the same walk with the path from the root to
the current ancestor given reversed, so that moving to the parent is
structural recursion (dropping the head of the reversed path). -/
def mergeWalkAux : QNode → List Nat → QNode
  | t, [] =>
    match nodeAt t [] with
    | none => t
    | some n => if allChildrenEmpty n then updateAt [] clearChildren t else t
  | t, rh :: rt =>
    match nodeAt t (rh :: rt).reverse with
    | none => t
    | some n =>
      if allChildrenEmpty n then
        mergeWalkAux (updateAt (rh :: rt).reverse clearChildren t) rt
      else t

/-- The upward merge loop of `QuadtreeNode::remove`, started at the path
`q` of the first ancestor (the emptied node's parent): while the current
ancestor's children are all childless and memberless, discard them and move
to its parent; stop at the root or at the first ancestor failing the test. -/
def mergeWalk (t : QNode) (q : List Nat) : QNode :=
  mergeWalkAux t q.reverse

/-- Model of `QuadtreeNode::remove`, acting on the node at path `p` of tree `t`:
swap-remove the first member whose entity matches, and if that empties the
member list, run the upward merge walk from the parent. -/
def nodeRemove (t : QNode) (p : List Nat) (e : Nat) : QNode :=
  match nodeAt t p with
  | none => t
  | some n =>
    match findEntityIdx e n.members with
    | none => t
    | some i =>
      let t₁ := updateAt p (fun nd => nd.withMembers (swapRemove nd.members i)) t
      if (swapRemove n.members i).isEmpty then
        match p with
        | [] => t₁
        | _ :: _ => mergeWalk t₁ p.dropLast
      else t₁

/-- Redistribution push of the split in `QuadtreeNode::add`:
`self.find_node_mut(&bounds).members.push((e, bounds))`. -/
def pushMemberAtFound (n : QNode) (e : Nat) (b : Bounds) : QNode :=
  updateAt (findNodePath n b) (updateMembers (fun ms => ms ++ [(e, b)])) n

/-- Model of `QuadtreeNode::add` on the receiving node: append if fewer than 4
members are held, otherwise push 4 quadrant children and re-home every old
member plus the new one through `find_node_mut`.  The redistribution pushes
directly into the found node's member list, with no capacity check. -/
def addNode (n : QNode) (e : Nat) (b : Bounds) : QNode :=
  if n.members.length < 4 then
    n.withMembers (n.members ++ [(e, b)])
  else
    let n₁ := QNode.mk n.bounds
      (n.children ++ [QNode.mk (n.bounds.split 0) [] [], QNode.mk (n.bounds.split 1) [] [],
        QNode.mk (n.bounds.split 2) [] [], QNode.mk (n.bounds.split 3) [] []])
      []
    let n₂ := n.members.foldl (fun acc eb => pushMemberAtFound acc eb.1 eb.2) n₁
    pushMemberAtFound n₂ e b

/-- Model of `Quadtree::new`: a root leaf covering the unit square. -/
def quadNew : QNode := .mk ⟨⟨0, 0⟩, 1⟩ [] []

/-- Model of `Quadtree::_add`: find the destination node for the extent and `add`
the entity there unless that node already holds it. -/
def quadAdd (t : QNode) (e : Nat) (b : Bounds) : QNode :=
  let p := findNodePath t b
  match nodeAt t p with
  | none => t
  | some n =>
    match findEntityIdx e n.members with
    | some _ => t
    | none => updateAt p (fun nd => addNode nd e b) t

/-- Model of `Quadtree::_remove`: find the destination node for the extent and
swap-remove the first entity match there.  No merge collapse is run. -/
def quadRemove (t : QNode) (e : Nat) (b : Bounds) : QNode :=
  updateAt (findNodePath t b) (updateMembers (swapRemoveEntity e)) t

/-- The strict containment test of `SysUpdateQuadtree::run`: all four
comparisons are strict. -/
def strictContains (nb b : Bounds) : Prop :=
  nb.pos.x < b.pos.x ∧ b.pos.x + b.size < nb.pos.x + nb.size ∧
  nb.pos.y < b.pos.y ∧ b.pos.y + b.size < nb.pos.y + nb.size

instance : DecidablePred fun p : Bounds × Bounds => strictContains p.1 p.2 :=
  fun _ => by unfold strictContains; infer_instance

instance (nb b : Bounds) : Decidable (strictContains nb b) := by
  unfold strictContains; infer_instance

/-- The per-entity body of `SysUpdateQuadtree::run` (the relocation
protocol).  `ref` is the entity's `QuadtreeRef`, modelled as the path of
the referenced node (`none` when the entity has no ref yet).  Untracked:
add at the node found from the root.  Tracked and still strictly contained:
descend with `find_node_mut` from the held node; if a better child exists,
add there first and then `remove` (with merge walk) from the held node,
otherwise leave everything untouched.  Tracked but no longer contained:
`remove` from the held node, then find from the root and add. -/
def relocate (t : QNode) (ref : Option (List Nat)) (e : Nat) (b : Bounds) : QNode :=
  match ref with
  | none => updateAt (findNodePath t b) (fun nd => addNode nd e b) t
  | some p =>
    match nodeAt t p with
    | none => t
    | some n =>
      if strictContains n.bounds b then
        let rel := findNodePath n b
        match rel with
        | [] => t
        | _ :: _ =>
          let t₁ := updateAt (p ++ rel) (fun nd => addNode nd e b) t
          nodeRemove t₁ p e
      else
        let t₁ := nodeRemove t p e
        updateAt (findNodePath t₁ b) (fun nd => addNode nd e b) t₁

/-- The cursor state of `QuadtreeIterator`: path of the current node, path
of `prev_node` (pointer identity of nodes is path identity), and the member
index. -/
structure IterState where
  path : List Nat
  prevPath : Option (List Nat)
  idx : Nat
deriving DecidableEq

/-- Outcome of one iteration of the `loop` in `QuadtreeIterator::next`. -/
inductive LoopStep where
  | descend (s : IterState)
  | yieldHere (s : IterState)
  | moveUp (s : IterState)
  | exhausted
  | aborts
deriving DecidableEq

/-- The resume index computed at a node with children:
`children.iter().position(|n| n == prev_node).unwrap() + 1`, or 0 when
`prev_node` is `None`.  A failed position lookup is the `unwrap` panic,
modelled as `none`. -/
def fIdxOf (n : QNode) (path : List Nat) (prevPath : Option (List Nat)) : Option Nat :=
  match prevPath with
  | none => some 0
  | some pp =>
    ((List.range n.children.length).find? (fun j => path ++ [j] == pp)).map (· + 1)

/-- The child scan `for idx in f_idx..4`: the first child index whose
quadrant's `min_sq_dist` to the target is below the squared bound. -/
def scanFrom (n : QNode) (target : Position) (maxsq : ℚ) (f : Nat) : Option Nat :=
  ((List.range 4).drop f).find? (fun j =>
    match n.children[j]? with
    | some c => decide (c.bounds.min_sq_dist target < maxsq)
    | none => false)

/-- One iteration of the `loop` in `QuadtreeIterator::next`, exactly as in
the source: at a node with children, compute the resume index (panicking if
the `prev_node` lookup fails) and scan for an admissible child to descend
into (the member index is *not* reset); at a leaf with members, reset the
member index to 0 and break out to yield; otherwise move to the parent —
and, as the two Rust statements are ordered, record the *parent* (not the
exited child) as `prev_node`. -/
def loopStep (t : QNode) (target : Position) (maxsq : ℚ) (s : IterState) : LoopStep :=
  let upOrDone : LoopStep :=
    match s.path with
    | [] => .exhausted
    | _ :: _ => .moveUp ⟨s.path.dropLast, some s.path.dropLast, s.idx⟩
  match nodeAt t s.path with
  | none => .aborts
  | some n =>
    if n.children.isEmpty then
      if n.members.isEmpty then upOrDone
      else .yieldHere ⟨s.path, s.prevPath, 0⟩
    else
      match fIdxOf n s.path s.prevPath with
      | none => .aborts
      | some f =>
        match scanFrom n target maxsq f with
        | some j => .descend ⟨s.path ++ [j], none, s.idx⟩
        | none => upOrDone

/-- Result of one `next` call: an item with the successor state, iterator
exhaustion (`None`), or a panic. -/
inductive IterOut where
  | yields (item : Nat × Bounds) (s : IterState)
  | done
  | aborts
deriving DecidableEq

/-- Run the `loop` of `next` to completion.  `fuel` bounds the number of
iterations (the Rust loop has no bound; exhausted fuel is reported as an
abort so no theorem can mistake it for a real outcome). -/
def runLoop (t : QNode) (target : Position) (maxsq : ℚ) : Nat → IterState → IterOut
  | 0, _ => .aborts
  | fuel + 1, s =>
    match loopStep t target maxsq s with
    | .descend s' => runLoop t target maxsq fuel s'
    | .moveUp s' => runLoop t target maxsq fuel s'
    | .yieldHere s' =>
      (match nodeAt t s'.path with
      | some n =>
        match n.members[0]? with
        | some it => .yields it ⟨s'.path, s'.prevPath, 1⟩
        | none => .aborts
      | none => .aborts)
    | .exhausted => .done
    | .aborts => .aborts

/-- Model of `QuadtreeIterator::next`: yield the member at the current index if
there is one, advancing the index; otherwise enter the loop. -/
def iterNext (t : QNode) (target : Position) (maxsq : ℚ) (fuel : Nat)
    (s : IterState) : IterOut :=
  match nodeAt t s.path with
  | none => .aborts
  | some n =>
    match n.members[s.idx]? with
    | some it => .yields it ⟨s.path, s.prevPath, s.idx + 1⟩
    | none => runLoop t target maxsq fuel s

/-- The initial cursor of `Quadtree::iter_with_max_dist`: root node,
no previous node, member index 0; the bound is squared. -/
def initIter : IterState := ⟨[], none, 0⟩

/-- Drain up to `steps` items from the iterator. -/
def collectIter (t : QNode) (target : Position) (maxsq : ℚ) (fuel : Nat) :
    Nat → IterState → List (Nat × Bounds)
  | 0, _ => []
  | steps + 1, s =>
    match iterNext t target maxsq fuel s with
    | .yields it s' => it :: collectIter t target maxsq fuel steps s'
    | _ => []

/-! ### Definitions taken from the specification's words
These are *not* translations of the source; they state what the spec says,
for comparison with the source functions above. -/

/-- Spec, §4.4: the minimum squared distance from a target to a square is,
per axis, 0 when the target lies within the span and otherwise the squared
distance to the nearer edge. -/
def specNearestPointSqDist (b : Bounds) (target : Position) : ℚ :=
  let dx := if target.x < b.pos.x then b.pos.x - target.x
            else if b.pos.x + b.size < target.x then target.x - (b.pos.x + b.size)
            else 0
  let dy := if target.y < b.pos.y then b.pos.y - target.y
            else if b.pos.y + b.size < target.y then target.y - (b.pos.y + b.size)
            else 0
  dx * dx + dy * dy

/-- Spec, §3/§4.5: an extent `[x, x+s) × [y, y+s)` crosses the x midline of
a node when it fits entirely on neither side of it. -/
def geomCrossesX (n : QNode) (b : Bounds) : Prop :=
  let midx := n.bounds.pos.x + n.bounds.size * (1/2 : ℚ)
  b.pos.x < midx ∧ midx < b.pos.x + b.size

/-- Spec, §3/§4.5: crossing the y midline. -/
def geomCrossesY (n : QNode) (b : Bounds) : Prop :=
  let midy := n.bounds.pos.y + n.bounds.size * (1/2 : ℚ)
  b.pos.y < midy ∧ midy < b.pos.y + b.size

instance (n : QNode) (b : Bounds) : Decidable (geomCrossesX n b) := by
  unfold geomCrossesX; infer_instance

instance (n : QNode) (b : Bounds) : Decidable (geomCrossesY n b) := by
  unfold geomCrossesY; infer_instance

/-- Spec, §3: region containment for half-open squares:
`[x, x+s) ⊆ [X, X+S)` iff `X ≤ x` and `x+s ≤ X+S`, per axis. -/
def containsB (big small : Bounds) : Prop :=
  big.pos.x ≤ small.pos.x ∧ small.pos.x + small.size ≤ big.pos.x + big.size ∧
  big.pos.y ≤ small.pos.y ∧ small.pos.y + small.size ≤ big.pos.y + big.size

instance (big small : Bounds) : Decidable (containsB big small) := by
  unfold containsB; infer_instance

/-- Spec, §7: an extent lies within the configured root square `[0,1)²`. -/
def withinRoot (b : Bounds) : Prop :=
  0 ≤ b.pos.x ∧ b.pos.x + b.size ≤ 1 ∧ 0 ≤ b.pos.y ∧ b.pos.y + b.size ≤ 1

instance (b : Bounds) : Decidable (withinRoot b) := by
  unfold withinRoot; infer_instance

/-! ### Concrete states used in the settled claims -/

/-- A size-0 extent at (3/4, 1/4), inside quadrant 1. -/
def bQ1 : Bounds := ⟨⟨3/4, 1/4⟩, 0⟩

/-- Tree state for C1: a split root whose quadrant-1 child holds entity 7,
the other children empty (e.g. after inserts into quadrant 1 followed by
removals down to one member). -/
def tC1 : QNode :=
  .mk ⟨⟨0, 0⟩, 1⟩
    [ .mk ⟨⟨0, 0⟩, 1/2⟩ [] [],
      .mk ⟨⟨1/2, 0⟩, 1/2⟩ [] [(7, bQ1)],
      .mk ⟨⟨0, 1/2⟩, 1/2⟩ [] [],
      .mk ⟨⟨1/2, 1/2⟩, 1/2⟩ [] [] ]
    []

/-- Size-0 extent at (0.1, 0.1). -/
def bLo : Bounds := ⟨⟨1/10, 1/10⟩, 0⟩

/-- Size-0 extent at (0.9, 0.9). -/
def bHi : Bounds := ⟨⟨9/10, 9/10⟩, 0⟩

/-- Size-0 extent at (0.5, 0.5). -/
def bMid : Bounds := ⟨⟨1/2, 1/2⟩, 0⟩

/-- Tree state for C2: the spec's range-query scenario, a root leaf of size
1 holding exactly the three size-0 entities. -/
def tC2 : QNode := .mk ⟨⟨0, 0⟩, 1⟩ [] [(11, bLo), (12, bHi), (13, bMid)]

/-- Size-0 extent at (0.9, 0.1). -/
def bBR : Bounds := ⟨⟨9/10, 1/10⟩, 0⟩

/-- Size-0 extent at (0.1, 0.9). -/
def bTL : Bounds := ⟨⟨1/10, 9/10⟩, 0⟩

/-- The tree obtained by inserting entities 1–5, all at the size-0 extent
(0.1, 0.1), into the fresh index: the fifth insert splits the root and the
redistribution pushes all five members into child 0. -/
def tFive : QNode :=
  quadAdd (quadAdd (quadAdd (quadAdd (quadAdd quadNew 1 bLo) 2 bLo) 3 bLo) 4 bLo) 5 bLo

/-- A root leaf holding four members, one per quadrant: the state before
the C5 round trip. -/
def tFour : QNode := .mk ⟨⟨0, 0⟩, 1⟩ [] [(1, bLo), (2, bBR), (3, bTL), (4, bHi)]

/-- A root leaf holding three members: a state where the amended C5 round
trip applies. -/
def tThree : QNode := .mk ⟨⟨0, 0⟩, 1⟩ [] [(1, bLo), (2, bBR), (3, bTL)]

/-- An extent escaping the unit square on both axes. -/
def bBig : Bounds := ⟨⟨2, 2⟩, 1⟩

/-- A split root with four empty quadrant leaves (e.g. after a split and
removals emptying every child). -/
def tSplit : QNode :=
  .mk ⟨⟨0, 0⟩, 1⟩
    [ .mk ⟨⟨0, 0⟩, 1/2⟩ [] [],
      .mk ⟨⟨1/2, 0⟩, 1/2⟩ [] [],
      .mk ⟨⟨0, 1/2⟩, 1/2⟩ [] [],
      .mk ⟨⟨1/2, 1/2⟩, 1/2⟩ [] [] ]
    []

/-- The C7 boundary extent: origin exactly on the x midline of the unit
square, fitting entirely inside quadrant 1. -/
def bEdge : Bounds := ⟨⟨1/2, 1/10⟩, 1/5⟩

/-- A tracked extent strictly inside the unit square. -/
def bOld : Bounds := ⟨⟨3/10, 3/10⟩, 1/5⟩

/-- The moved extent for C9: still strictly inside the unit square and in
the same (root) node. -/
def bNew : Bounds := ⟨⟨2/5, 2/5⟩, 1/5⟩

/-- A root leaf tracking entity 7 at `bOld`. -/
def tOne : QNode := .mk ⟨⟨0, 0⟩, 1⟩ [] [(7, bOld)]

/-- A split root whose quadrant-0 child holds the single entity 1; removing
it empties the child and triggers the merge collapse at the root. -/
def tW : QNode :=
  .mk ⟨⟨0, 0⟩, 1⟩
    [ .mk ⟨⟨0, 0⟩, 1/2⟩ [] [(1, bLo)],
      .mk ⟨⟨1/2, 0⟩, 1/2⟩ [] [],
      .mk ⟨⟨0, 1/2⟩, 1/2⟩ [] [],
      .mk ⟨⟨1/2, 1/2⟩, 1/2⟩ [] [] ]
    []

/-- The stop condition of `find_node` on the x axis, as the source tests
it: the midline is not strictly left of the extent's origin, and is
strictly left of the extent's end. -/
def xCrossCode (nb b : Bounds) : Prop :=
  let midx := nb.pos.x + nb.size * (1/2 : ℚ)
  ¬ (midx < b.pos.x) ∧ midx < b.pos.x + b.size

/-- The stop condition of `find_node` on the y axis. -/
def yCrossCode (nb b : Bounds) : Prop :=
  let midy := nb.pos.y + nb.size * (1/2 : ℚ)
  ¬ (midy < b.pos.y) ∧ midy < b.pos.y + b.size

instance (nb b : Bounds) : Decidable (xCrossCode nb b) := by
  unfold xCrossCode; infer_instance

instance (nb b : Bounds) : Decidable (yCrossCode nb b) := by
  unfold yCrossCode; infer_instance

/-- The child index `find_node` descends into when neither axis stops it:
`+1` when the extent is right of the x midline, `+2` when above the y
midline. -/
def quadIdx (nb b : Bounds) : Nat :=
  (if nb.pos.x + nb.size * (1/2 : ℚ) < b.pos.x then 1 else 0) +
  (if nb.pos.y + nb.size * (1/2 : ℚ) < b.pos.y then 2 else 0)

/-- The four fresh quadrant leaves pushed by the split in
`QuadtreeNode::add`. -/
def freshChildren (nb : Bounds) : List QNode :=
  [QNode.mk (nb.split 0) [] [], QNode.mk (nb.split 1) [] [],
   QNode.mk (nb.split 2) [] [], QNode.mk (nb.split 3) [] []]

/-! ### Helper lemmas about paths, updates and member lists -/

theorem modifyIdx_getElem? (f : α → α) (l : List α) (i j : Nat) :
    (modifyIdx f l i)[j]? = if i = j then (l[j]?).map f else l[j]? := by
  induction l generalizing i j with
  | nil => simp [modifyIdx]
  | cons a l ih =>
    cases i with
    | zero =>
      cases j with
      | zero => simp [modifyIdx]
      | succ j => simp [modifyIdx]
    | succ i =>
      cases j with
      | zero => simp [modifyIdx]
      | succ j =>
        simp only [modifyIdx, List.getElem?_cons_succ, ih]
        by_cases h : i = j <;> simp [h]

theorem modifyIdx_eq_self (f : α → α) (l : List α) (i : Nat) (a : α)
    (hget : l[i]? = some a) (hfix : f a = a) : modifyIdx f l i = l := by
  induction l generalizing i with
  | nil => simp at hget
  | cons x l ih =>
    cases i with
    | zero =>
      simp only [List.getElem?_cons_zero, Option.some.injEq] at hget
      subst hget
      simp [modifyIdx, hfix]
    | succ i =>
      simp only [List.getElem?_cons_succ] at hget
      simp [modifyIdx, ih i hget]

theorem modifyIdx_comp (f g : α → α) (l : List α) (i : Nat) :
    modifyIdx f (modifyIdx g l i) i = modifyIdx (fun a => f (g a)) l i := by
  induction l generalizing i with
  | nil => simp [modifyIdx]
  | cons a l ih =>
    cases i with
    | zero => simp [modifyIdx]
    | succ i => simp [modifyIdx, ih]

theorem nodeAt_updateAt (p : List Nat) (f : QNode → QNode) (t : QNode) :
    nodeAt (updateAt p f t) p = (nodeAt t p).map f := by
  induction p generalizing t with
  | nil => simp [updateAt, nodeAt]
  | cons i p ih =>
    cases t with
    | mk nb cs ms =>
      simp only [updateAt, nodeAt, QNode.children, modifyIdx_getElem?, if_pos rfl]
      cases h : cs[i]? with
      | none => simp
      | some c => simp [ih]

theorem modifyIdx_congr (f g : α → α) (l : List α) (i : Nat) (a : α)
    (hget : l[i]? = some a) (hfg : f a = g a) : modifyIdx f l i = modifyIdx g l i := by
  induction l generalizing i with
  | nil => simp at hget
  | cons x l ih =>
    cases i with
    | zero =>
      simp only [List.getElem?_cons_zero, Option.some.injEq] at hget
      subst hget
      simp [modifyIdx, hfg]
    | succ i =>
      simp only [List.getElem?_cons_succ] at hget
      simp [modifyIdx, ih i hget]

theorem updateAt_congr (p : List Nat) (f g : QNode → QNode) (t : QNode) (n : QNode)
    (hp : nodeAt t p = some n) (hfg : f n = g n) : updateAt p f t = updateAt p g t := by
  induction p generalizing t with
  | nil =>
    simp only [nodeAt, Option.some.injEq] at hp
    subst hp
    simp [updateAt, hfg]
  | cons i p ih =>
    cases t with
    | mk nb cs ms =>
      simp only [nodeAt, QNode.children] at hp
      cases h : cs[i]? with
      | none => simp [h] at hp
      | some c =>
        simp only [h] at hp
        simp only [updateAt]
        congr 1
        exact modifyIdx_congr _ _ _ _ _ h (ih c hp)

theorem updateAt_id (p : List Nat) (f : QNode → QNode) (t : QNode) (n : QNode)
    (hp : nodeAt t p = some n) (hfix : f n = n) : updateAt p f t = t := by
  induction p generalizing t with
  | nil =>
    simp only [nodeAt, Option.some.injEq] at hp
    subst hp
    simp [updateAt, hfix]
  | cons i p ih =>
    cases t with
    | mk nb cs ms =>
      simp only [nodeAt, QNode.children] at hp
      cases h : cs[i]? with
      | none => simp [h] at hp
      | some c =>
        simp only [h] at hp
        simp only [updateAt]
        congr 1
        exact modifyIdx_eq_self _ _ _ _ h (ih c hp)

theorem updateAt_comp (p : List Nat) (f g : QNode → QNode) (t : QNode) :
    updateAt p f (updateAt p g t) = updateAt p (fun n => f (g n)) t := by
  induction p generalizing t with
  | nil => simp [updateAt]
  | cons i p ih =>
    cases t with
    | mk nb cs ms =>
      simp only [updateAt, QNode.children]
      congr 1
      rw [modifyIdx_comp]
      have : (fun a => updateAt p f (updateAt p g a)) = updateAt p (fun n => f (g n)) := by
        funext c
        exact ih c
      rw [this]

theorem modifyIdx_length (f : α → α) (l : List α) (i : Nat) :
    (modifyIdx f l i).length = l.length := by
  induction l generalizing i with
  | nil => simp [modifyIdx]
  | cons a l ih =>
    cases i with
    | zero => simp [modifyIdx]
    | succ i => simp [modifyIdx, ih]

theorem nodeAt_updateMembers_cons (g : List (Nat × Bounds) → List (Nat × Bounds))
    (t : QNode) (j : Nat) (q : List Nat) :
    nodeAt (updateMembers g t) (j :: q) = nodeAt t (j :: q) := by
  cases t with
  | mk nb cs ms => simp [updateMembers, QNode.withMembers, nodeAt, QNode.children]

theorem nodeAt_updateMembersAt_shape (p : List Nat)
    (g : List (Nat × Bounds) → List (Nat × Bounds)) (t : QNode) (q : List Nat) :
    (nodeAt (updateAt p (updateMembers g) t) q).map (fun n => (n.bounds, n.children.length)) =
    (nodeAt t q).map (fun n => (n.bounds, n.children.length)) := by
  induction p generalizing t q with
  | nil =>
    simp only [updateAt]
    cases q with
    | nil =>
      cases t with
      | mk nb cs ms =>
        simp [updateMembers, QNode.withMembers, nodeAt, QNode.bounds, QNode.children]
    | cons j q => rw [nodeAt_updateMembers_cons]
  | cons i p ih =>
    cases t with
    | mk nb cs ms =>
      cases q with
      | nil =>
        simp [updateAt, nodeAt, QNode.bounds, QNode.children, modifyIdx_length]
      | cons j q =>
        simp only [updateAt, nodeAt, QNode.children, modifyIdx_getElem?]
        by_cases hij : i = j
        · subst hij
          simp only [if_pos rfl]
          cases h : cs[i]? with
          | none => simp
          | some c => simpa using ih c q
        · simp [hij]

theorem nodeAt_updateMembersAt_off (p : List Nat)
    (g : List (Nat × Bounds) → List (Nat × Bounds)) (t : QNode) (q : List Nat)
    (hne : q ≠ p) :
    (nodeAt (updateAt p (updateMembers g) t) q).map QNode.members =
    (nodeAt t q).map QNode.members := by
  induction p generalizing t q with
  | nil =>
    simp only [updateAt]
    cases q with
    | nil => exact absurd rfl hne
    | cons j q => rw [nodeAt_updateMembers_cons]
  | cons i p ih =>
    cases t with
    | mk nb cs ms =>
      cases q with
      | nil => simp [nodeAt, updateAt, QNode.members]
      | cons j q =>
        simp only [updateAt, nodeAt, QNode.children, modifyIdx_getElem?]
        by_cases hij : i = j
        · subst hij
          simp only [if_pos rfl]
          cases h : cs[i]? with
          | none => simp
          | some c =>
            have hq : q ≠ p := by
              intro hqp
              exact hne (by rw [hqp])
            simp [ih _ _ hq]
        · simp [hij]

theorem findNodePath_short (t : QNode) (b : Bounds)
    (h : t.children.length < 4) : findNodePath t b = [] := by
  cases t with
  | mk nb cs ms =>
    simp only [QNode.children] at h
    rcases cs with _ | ⟨c0, _ | ⟨c1, _ | ⟨c2, _ | ⟨c3, rest⟩⟩⟩⟩
    · simp [findNodePath]
    · simp [findNodePath]
    · simp [findNodePath]
    · simp [findNodePath]
    · simp only [List.length_cons] at h
      omega

theorem findNodePath_updateMembersAt (p : List Nat)
    (g : List (Nat × Bounds) → List (Nat × Bounds)) (t : QNode) (b : Bounds) :
    findNodePath (updateAt p (updateMembers g) t) b = findNodePath t b := by
  induction p generalizing t with
  | nil =>
    cases t with
    | mk nb cs ms =>
      simp only [updateAt, updateMembers, QNode.withMembers, QNode.members]
      rcases cs with _ | ⟨c0, _ | ⟨c1, _ | ⟨c2, _ | ⟨c3, rest⟩⟩⟩⟩ <;>
        simp [findNodePath]
  | cons i p ih =>
    cases t with
    | mk nb cs ms =>
      simp only [updateAt]
      rcases cs with _ | ⟨c0, _ | ⟨c1, _ | ⟨c2, _ | ⟨c3, rest⟩⟩⟩⟩
      · simp [modifyIdx, findNodePath]
      · rw [findNodePath_short, findNodePath_short] <;>
          simp [QNode.children, modifyIdx_length]
      · rw [findNodePath_short, findNodePath_short] <;>
          simp [QNode.children, modifyIdx_length]
      · rw [findNodePath_short, findNodePath_short] <;>
          simp [QNode.children, modifyIdx_length]
      · rcases i with _ | ⟨_ | ⟨_ | ⟨_ | i⟩⟩⟩ <;>
          simp [modifyIdx, findNodePath, ih]

theorem QNode.withMembers_members (n : QNode) : n.withMembers n.members = n := by
  cases n with
  | mk nb cs ms => rfl

theorem findEntityIdx_lt (e : Nat) (ms : List (Nat × Bounds)) (i : Nat)
    (h : findEntityIdx e ms = some i) : i < ms.length := by
  induction ms generalizing i with
  | nil => simp [findEntityIdx] at h
  | cons m ms ih =>
    rcases m with ⟨e', b'⟩
    simp only [findEntityIdx] at h
    by_cases he : e' = e
    · rw [if_pos he] at h
      simp only [Option.some.injEq] at h
      subst h
      show 0 < ms.length + 1
      omega
    · rw [if_neg he] at h
      cases hrec : findEntityIdx e ms with
      | none =>
        rw [hrec] at h
        simp at h
      | some j =>
        rw [hrec] at h
        simp at h
        subst h
        have := ih j hrec
        show j + 1 < ms.length + 1
        omega

theorem findEntityIdx_append_self (e : Nat) (ms : List (Nat × Bounds)) (b : Bounds)
    (h : findEntityIdx e ms = none) :
    findEntityIdx e (ms ++ [(e, b)]) = some ms.length := by
  induction ms with
  | nil => simp [findEntityIdx]
  | cons m ms ih =>
    rcases m with ⟨e', b'⟩
    simp only [findEntityIdx] at h
    by_cases he : e' = e
    · rw [if_pos he] at h
      simp at h
    · rw [if_neg he] at h
      have hrec : findEntityIdx e ms = none := by
        cases hx : findEntityIdx e ms with
        | none => rfl
        | some j =>
          rw [hx] at h
          simp at h
      simp only [List.cons_append, findEntityIdx, if_neg he, Option.map_some,
        List.length_cons]
      rw [show ms ++ [(e, b)] = ms.append [(e, b)] from rfl] at ih
      rw [ih hrec]
      rfl

theorem set_last_concat (ms : List α) (x y : α) :
    (ms ++ [x]).set ms.length y = ms ++ [y] := by
  induction ms with
  | nil => simp
  | cons a ms ih => simp [List.cons_append, List.set, ih]

theorem swapRemove_concat (ms : List (Nat × Bounds)) (x : Nat × Bounds) :
    swapRemove (ms ++ [x]) ms.length = ms := by
  unfold swapRemove
  rw [List.getLast?_concat]
  show ((ms ++ [x]).set ms.length x).dropLast = ms
  rw [set_last_concat, List.dropLast_concat]

theorem swapRemove_length (ms : List α) (i : Nat) (h : i < ms.length) :
    (swapRemove ms i).length + 1 = ms.length := by
  unfold swapRemove
  cases hms : ms.getLast? with
  | none =>
    rw [List.getLast?_eq_none_iff] at hms
    subst hms
    simp at h
  | some la =>
    have hne : ms ≠ [] := by
      intro hnil
      subst hnil
      simp at hms
    have hlen : 0 < ms.length := List.length_pos.mpr hne
    simp only [List.length_dropLast, List.length_set]
    omega

theorem QNode.members_withMembers (n : QNode) (ms : List (Nat × Bounds)) :
    (n.withMembers ms).members = ms := by
  cases n with
  | mk nb cs m => rfl

theorem QNode.withMembers_withMembers (n : QNode) (ms1 ms2 : List (Nat × Bounds)) :
    (n.withMembers ms1).withMembers ms2 = n.withMembers ms2 := by
  cases n with
  | mk nb cs m => rfl

/-- Behaviour of `Quadtree::_add` when the destination node is below capacity and does
not already hold the entity: the pair is appended to that node's member
list, with no split and no other change. -/
theorem quadAdd_no_split (t : QNode) (e : Nat) (b : Bounds) (n : QNode)
    (hn : nodeAt t (findNodePath t b) = some n)
    (hnotin : findEntityIdx e n.members = none)
    (hlen : n.members.length < 4) :
    quadAdd t e b =
      updateAt (findNodePath t b) (updateMembers (fun ms => ms ++ [(e, b)])) t := by
  unfold quadAdd
  simp only [hn, hnotin]
  exact updateAt_congr _ _ _ _ _ hn (by simp [addNode, hlen, updateMembers])

/-! ### Claims -/

/-- Claim C1 (refuted by the code): when the cursor must move from a node
with no members left and no admissible unexplored children to its parent,
the claim says the exited child is recorded so the parent resumes scanning
after it.  The code instead records the parent itself as `prev_node` (the
assignment runs after `self.node` is overwritten), so the parent's
position-lookup of `prev_node` among its own children fails and the
`unwrap` panics: on `tC1`, the cursor descends into the empty child 0,
moves up recording `some []` (the root's own path) instead of child index
0, and the next loop iteration aborts; the whole `next` call aborts. -/
theorem spec_c1 :
    loopStep tC1 ⟨1/10, 1/10⟩ 1 ⟨[0], none, 0⟩ = .moveUp ⟨[], some [], 0⟩ ∧
    loopStep tC1 ⟨1/10, 1/10⟩ 1 ⟨[], some [], 0⟩ = .aborts ∧
    iterNext tC1 ⟨1/10, 1/10⟩ 1 10 initIter = .aborts := by
  refine ⟨by decide, by decide, by decide⟩

/-- Claim C2 (refuted by the code): on the spec's scenario tree `tC2`, the
claim says `query_range((0.5,0.5), 0.15)` yields exactly the entity at
(0.5,0.5).  The code yields every member of the current node with no
per-member distance check, so entities 11 and 12 (at distance ≈ 0.566) are
yielded too; worse, once the leaf's members are exhausted the loop resets
the member index to 0 and yields them again: after the third yield the
cursor state equals the state after the first yield, so the enumeration
cycles forever and the iterator never terminates. -/
theorem spec_c2 :
    collectIter tC2 ⟨1/2, 1/2⟩ ((3/20) * (3/20)) 10 4 initIter =
      [(11, bLo), (12, bHi), (13, bMid), (11, bLo)] ∧
    iterNext tC2 ⟨1/2, 1/2⟩ ((3/20) * (3/20)) 10 ⟨[], none, 3⟩ =
      .yields (11, bLo) ⟨[], none, 1⟩ ∧
    iterNext tC2 ⟨1/2, 1/2⟩ ((3/20) * (3/20)) 10 initIter =
      .yields (11, bLo) ⟨[], none, 1⟩ := by
  refine ⟨by decide, by decide, by decide⟩

/-- Claim C3 (refuted by the code): the claim says `min_sq_dist` is the
per-axis-clamped squared distance to the nearest point on or in the
square.  The code computes the squared distance to the nearest *corner*:
for the unit square and the target (0.5, 0.5) at its centre the true
minimum distance is 0, but the code returns 1/2. -/
theorem spec_c3 :
    Bounds.min_sq_dist ⟨⟨0, 0⟩, 1⟩ ⟨1/2, 1/2⟩ = 1/2 ∧
    specNearestPointSqDist ⟨⟨0, 0⟩, 1⟩ ⟨1/2, 1/2⟩ = 0 := by
  refine ⟨by decide, by decide⟩

/-- Claim C4 (refuted by the code): the claim says every leaf holds at most
`capacity = 4` members after any sequence of index operations.  Inserting
the five entities 1–5 at the same extent (0.1, 0.1) into the fresh index
makes the fifth `add` split the root, and the split's redistribution pushes
all five members straight into child 0's member list with no capacity
check, leaving a leaf with 5 members. -/
theorem spec_c4 :
    (nodeAt tFive [0]).map (fun n => (n.members.length, n.children.length)) =
      some (5, 0) ∧
    (nodeAt tFive [0]).map (fun n => n.members) =
      some [(1, bLo), (2, bLo), (3, bLo), (4, bLo), (5, bLo)] := by
  refine ⟨by decide, by decide⟩

/-- Claim C5, counterexample: inserting entity 5 at (0.1, 0.1) into the
four-member root leaf `tFour` splits the root; the immediately following
`remove(5, (0.1,0.1))` only deletes the member and never undoes the split
(`Quadtree::_remove` has no merge walk), so the tree keeps its four
children instead of returning to the childless root leaf. -/
theorem spec_c5_counterexample :
    (quadRemove (quadAdd tFour 5 bLo) 5 bLo).children.length = 4 ∧
    tFour.children.length = 0 ∧
    (nodeAt (quadRemove (quadAdd tFour 5 bLo) 5 bLo) [0]).map QNode.members =
      some [(1, bLo)] := by
  refine ⟨by decide, by decide, by decide⟩

/-- Claim C6, counterexample: `_add` with the extent (2,2)–(3,3), which
exceeds the root square, does not fail: `find_node` stops at the root leaf
and the extent is stored there unmodified. -/
theorem spec_c6_counterexample :
    ¬ withinRoot bBig ∧ (quadAdd quadNew 9 bBig).members = [(9, bBig)] := by
  refine ⟨by decide, by decide⟩

/-- Claim C7, counterexample: the extent `bEdge` has its origin exactly on
the x midline of the split root `tSplit`; it does not cross either midline
(it fits entirely in the right/bottom halves, and indeed quadrant 1's
bounds fully contain it), yet `find_node` stops at the internal node
instead of descending, because its right-half test `mid_x < pos.x` is
strict. -/
theorem spec_c7_counterexample :
    ¬ geomCrossesX tSplit bEdge ∧ ¬ geomCrossesY tSplit bEdge ∧
    containsB ⟨⟨1/2, 0⟩, 1/2⟩ bEdge ∧ findNodePath tSplit bEdge = [] := by
  refine ⟨by decide, by decide, by decide, by decide⟩

/-- Claim C9, counterexample: entity 7 is tracked at the root with extent
`bOld`; relocating it to `bNew` (still strictly inside the root, no better
child) leaves the tree untouched — the stored extent remains `bOld` — while
`remove(7, bOld)` followed by `insert(7, bNew)` stores `bNew`, so the two
resulting trees differ. -/
theorem spec_c9_counterexample :
    (relocate tOne (some []) 7 bNew).members = [(7, bOld)] ∧
    (quadAdd (quadRemove tOne 7 bOld) 7 bNew).members = [(7, bNew)] ∧
    bOld ≠ bNew := by
  refine ⟨by decide, by decide, by decide⟩

/-- Claim C5, amended: the round trip `insert(e, x)` then `remove(e, x)`
restores the tree exactly, provided the destination node `find_node`
selects for `x` holds fewer than `capacity = 4` members and does not
already hold `e` (so the insert appends without splitting).  As stated the
claim is false: an insert that splits the destination is not undone by the
remove, which never merges (see the counterexample). -/
theorem spec_c5 (t : QNode) (e : Nat) (b : Bounds) (n : QNode)
    (hn : nodeAt t (findNodePath t b) = some n)
    (hlen : n.members.length < 4)
    (hnotin : findEntityIdx e n.members = none) :
    quadRemove (quadAdd t e b) e b = t := by
  have hadd := quadAdd_no_split t e b n hn hnotin hlen
  have hpath : findNodePath (quadAdd t e b) b = findNodePath t b := by
    rw [hadd, findNodePath_updateMembersAt]
  unfold quadRemove
  rw [hpath, hadd, updateAt_comp]
  apply updateAt_id _ _ _ _ hn
  show updateMembers (swapRemoveEntity e) (updateMembers (fun ms => ms ++ [(e, b)]) n) = n
  have h1 : findEntityIdx e (n.members ++ [(e, b)]) = some n.members.length :=
    findEntityIdx_append_self e n.members b hnotin
  simp only [updateMembers, QNode.members_withMembers, QNode.withMembers_withMembers]
  rw [show swapRemoveEntity e (n.members ++ [(e, b)]) = n.members by
    simp only [swapRemoveEntity, h1]
    exact swapRemove_concat n.members (e, b)]
  exact QNode.withMembers_members n

/-- Witness for C5: a three-member root leaf; inserting entity 5 and
removing it restores the leaf exactly. -/
theorem spec_c5_witness :
    tThree.members.length < 4 ∧ findEntityIdx 5 tThree.members = none ∧
    quadRemove (quadAdd tThree 5 bLo) 5 bLo = tThree :=
  ⟨by decide, by decide, spec_c5 tThree 5 bLo tThree rfl (by decide) (by decide)⟩

/-- Claim C6, amended: an operation given an extent exceeding the root
bounds does not fail and does not clamp: `_add` proceeds exactly as for any
extent, storing the pair unmodified at the node `find_node` selects (shown
here for a below-capacity destination; the original claim's failure is the
counterexample). -/
theorem spec_c6 (e : Nat) (b : Bounds) (t n : QNode)
    (hout : ¬ withinRoot b)
    (hn : nodeAt t (findNodePath t b) = some n)
    (hnotin : findEntityIdx e n.members = none)
    (hlen : n.members.length < 4) :
    nodeAt (quadAdd t e b) (findNodePath t b) =
      some (n.withMembers (n.members ++ [(e, b)])) := by
  rw [quadAdd_no_split t e b n hn hnotin hlen, nodeAt_updateAt, hn]
  rfl

/-- Witness for C6: the out-of-root extent `bBig` on the empty index. -/
theorem spec_c6_witness :
    ¬ withinRoot bBig ∧
    nodeAt (quadAdd quadNew 9 bBig) (findNodePath quadNew bBig) =
      some (quadNew.withMembers (quadNew.members ++ [(9, bBig)])) :=
  ⟨by decide, spec_c6 9 bBig quadNew quadNew (by decide) rfl rfl (by decide)⟩

/-- Claim C9, amended: (1) `relocate` on an untracked entity produces
exactly the tree `insert` produces, provided the destination node does not
already hold the entity (untracked entities are in no member list); (2)
`relocate` on a tracked entity whose new extent is still strictly inside
its node's bounds and for which `find_node` from that node finds no better
child leaves the tree entirely unchanged — in particular the stored extent
keeps its old value, so this is *not* the tree `remove(e, old)` then
`insert(e, new)` produces (see the counterexample). -/
theorem spec_c9 :
    (∀ (t : QNode) (e : Nat) (b : Bounds) (n : QNode),
        nodeAt t (findNodePath t b) = some n →
        findEntityIdx e n.members = none →
        relocate t none e b = quadAdd t e b) ∧
    (∀ (t : QNode) (p : List Nat) (e : Nat) (b : Bounds) (n : QNode),
        nodeAt t p = some n →
        strictContains n.bounds b →
        findNodePath n b = [] →
        relocate t (some p) e b = t) := by
  constructor
  · intro t e b n hn hnotin
    unfold relocate quadAdd
    simp only [hn, hnotin]
  · intro t p e b n hn hcont hpath
    unfold relocate
    simp only [hn, hpath, if_pos hcont]

/-- Witness for C9: an untracked insert on the empty index, and an
in-place relocation of entity 7. -/
theorem spec_c9_witness :
    relocate quadNew none 1 bLo = quadAdd quadNew 1 bLo ∧
    relocate tOne (some []) 7 bNew = tOne :=
  ⟨spec_c9.1 quadNew 1 bLo quadNew rfl rfl,
   spec_c9.2 tOne [] 7 bNew tOne rfl (by decide) rfl⟩

/-- Claim C10 (confirmed): `Quadtree::_remove` preserves every node's
bounds and child count everywhere (no merge collapse), leaves the member
list of every node other than the one `find_node` selects untouched, and
at the selected node performs exactly the swap-removal of the first
entity match: nothing is removed when no member matches, and exactly one
member is removed when one does. -/
theorem spec_c10 (t : QNode) (e : Nat) (b : Bounds) :
    (∀ q, (nodeAt (quadRemove t e b) q).map (fun n => (n.bounds, n.children.length)) =
          (nodeAt t q).map (fun n => (n.bounds, n.children.length))) ∧
    (∀ q, q ≠ findNodePath t b →
          (nodeAt (quadRemove t e b) q).map QNode.members =
            (nodeAt t q).map QNode.members) ∧
    (nodeAt (quadRemove t e b) (findNodePath t b) =
          (nodeAt t (findNodePath t b)).map (updateMembers (swapRemoveEntity e))) ∧
    (∀ ms, findEntityIdx e ms = none → swapRemoveEntity e ms = ms) ∧
    (∀ ms i, findEntityIdx e ms = some i →
          (swapRemoveEntity e ms).length + 1 = ms.length) := by
  refine ⟨?_, ?_, ?_, ?_, ?_⟩
  · intro q
    unfold quadRemove
    exact nodeAt_updateMembersAt_shape _ _ _ _
  · intro q hq
    unfold quadRemove
    exact nodeAt_updateMembersAt_off _ _ _ _ hq
  · unfold quadRemove
    exact nodeAt_updateAt _ _ _
  · intro ms h
    simp [swapRemoveEntity, h]
  · intro ms i h
    simp only [swapRemoveEntity, h]
    exact swapRemove_length _ _ (findEntityIdx_lt _ _ _ h)

/-- Witness for C10: removing entity 2 from the four-member root leaf. -/
theorem spec_c10_witness :
    ((nodeAt (quadRemove tFour 2 bBR) []).map (fun n => (n.bounds, n.children.length)) =
      (nodeAt tFour []).map (fun n => (n.bounds, n.children.length))) ∧
    ([0] ≠ findNodePath tFour bBR ∧
      (nodeAt (quadRemove tFour 2 bBR) [0]).map QNode.members =
        (nodeAt tFour [0]).map QNode.members) ∧
    (findEntityIdx 2 tFour.members = some 1 ∧
      (swapRemoveEntity 2 tFour.members).length + 1 = tFour.members.length) :=
  ⟨(spec_c10 tFour 2 bBR).1 [],
   ⟨by decide, (spec_c10 tFour 2 bBR).2.1 [0] (by decide)⟩,
   ⟨by decide, (spec_c10 tFour 2 bBR).2.2.2.2 tFour.members 1 (by decide)⟩⟩

/-- Claim C8 (confirmed): when a removal empties the member list of a
non-root node, `QuadtreeNode::remove` starts the upward walk at the parent
(`p.dropLast`); at each ancestor, if all its children are simultaneously
childless and memberless the children are discarded and the walk continues
from that ancestor's parent, and it stops at the first ancestor failing the
all-empty test. -/
theorem spec_c8 :
    (∀ (t : QNode) (p : List Nat) (e : Nat) (n : QNode) (i : Nat),
        p ≠ [] →
        nodeAt t p = some n →
        findEntityIdx e n.members = some i →
        swapRemove n.members i = [] →
        nodeRemove t p e =
          mergeWalk
            (updateAt p (fun nd => nd.withMembers (swapRemove nd.members i)) t)
            p.dropLast) ∧
    (∀ (t : QNode) (q : List Nat) (n : QNode),
        nodeAt t q = some n →
        allChildrenEmpty n = true →
        mergeWalk t q =
          if q = [] then updateAt q clearChildren t
          else mergeWalk (updateAt q clearChildren t) q.dropLast) ∧
    (∀ (t : QNode) (q : List Nat) (n : QNode),
        nodeAt t q = some n →
        allChildrenEmpty n = false →
        mergeWalk t q = t) := by
  refine ⟨?_, ?_, ?_⟩
  · intro t p e n i hp hn hfind hsw
    rcases p with _ | ⟨hd, tl⟩
    · exact absurd rfl hp
    · unfold nodeRemove
      simp only [hn, hfind, hsw]
      rfl
  · intro t q n hn hall
    unfold mergeWalk
    rcases hq : q.reverse with _ | ⟨rh, rt⟩
    · have hqnil : q = [] := by
        have := congrArg List.reverse hq
        simpa using this
      subst hqnil
      have hnt : t = n := by
        have : some t = some n := hn
        simpa using this
      subst hnt
      simp only [List.reverse_nil, mergeWalkAux, nodeAt, hall, if_true]
    · have hqval : q = rt.reverse ++ [rh] := by
        have := congrArg List.reverse hq
        simpa using this
      have hqne : q ≠ [] := by
        rw [hqval]
        simp
      have hrev : (rh :: rt).reverse = q := by
        rw [hqval]
        simp
      have hdrop : q.dropLast = rt.reverse := by
        rw [hqval, List.dropLast_concat]
      rw [if_neg hqne]
      simp only [mergeWalkAux, hrev, hn, hall, if_true]
      rw [hdrop, List.reverse_reverse]
  · intro t q n hn hall
    unfold mergeWalk
    rcases hq : q.reverse with _ | ⟨rh, rt⟩
    · have hqnil : q = [] := by
        have := congrArg List.reverse hq
        simpa using this
      subst hqnil
      have hnt : t = n := by
        have : some t = some n := hn
        simpa using this
      subst hnt
      simp [mergeWalkAux, nodeAt, hall]
    · have hqval : q = rt.reverse ++ [rh] := by
        have := congrArg List.reverse hq
        simpa using this
      have hrev : (rh :: rt).reverse = q := by
        rw [hqval]
        simp
      simp only [mergeWalkAux, hrev, hn, hall]
      simp

/-- Witness for C8: removing entity 1 from `tW`'s quadrant-0 child empties
it; the walk starts at the root, whose four children are then all empty, so
they are discarded; a walk at the original root (child 0 still populated)
stops immediately. -/
theorem spec_c8_witness :
    nodeRemove tW [0] 1 =
      mergeWalk (updateAt [0] (fun nd => nd.withMembers (swapRemove nd.members 0)) tW)
        [] ∧
    mergeWalk (updateAt [0] (fun nd => nd.withMembers (swapRemove nd.members 0)) tW)
        [] =
      updateAt [] clearChildren
        (updateAt [0] (fun nd => nd.withMembers (swapRemove nd.members 0)) tW) ∧
    mergeWalk tW [] = tW := by
  refine ⟨?_, ?_, ?_⟩
  · exact spec_c8.1 tW [0] 1 (QNode.mk ⟨⟨0, 0⟩, 1/2⟩ [] [(1, bLo)]) 0
      (by decide) rfl (by decide) (by decide)
  · have h := spec_c8.2.1
      (updateAt [0] (fun nd => nd.withMembers (swapRemove nd.members 0)) tW) []
      (updateAt [0] (fun nd => nd.withMembers (swapRemove nd.members 0)) tW)
      rfl (by decide)
    simpa using h
  · exact spec_c8.2.2 tW [] tW rfl (by decide)

theorem findNodePath_stop (nb : Bounds) (c0 c1 c2 c3 : QNode) (rest : List QNode)
    (ms : List (Nat × Bounds)) (b : Bounds)
    (hcross : xCrossCode nb b ∨ yCrossCode nb b) :
    findNodePath (QNode.mk nb (c0 :: c1 :: c2 :: c3 :: rest) ms) b = [] := by
  unfold xCrossCode yCrossCode at hcross
  simp only [findNodePath]
  rcases hcross with ⟨hx1, hx2⟩ | ⟨hy1, hy2⟩
  · rw [if_neg hx1, if_pos hx2]
  · by_cases hx : nb.pos.x + nb.size * (1/2 : ℚ) < b.pos.x
    · rw [if_pos hx, if_neg hy1, if_pos hy2]
    · rw [if_neg hx]
      by_cases hx2 : nb.pos.x + nb.size * (1/2 : ℚ) < b.pos.x + b.size
      · rw [if_pos hx2]
      · rw [if_neg hx2, if_neg hy1, if_pos hy2]

theorem findNodePath_descend (nb : Bounds) (c0 c1 c2 c3 : QNode) (rest : List QNode)
    (ms : List (Nat × Bounds)) (b : Bounds)
    (hx : ¬ xCrossCode nb b) (hy : ¬ yCrossCode nb b) :
    findNodePath (QNode.mk nb (c0 :: c1 :: c2 :: c3 :: rest) ms) b =
      quadIdx nb b ::
        findNodePath ((c0 :: c1 :: c2 :: c3 :: rest).getD (quadIdx nb b) c0) b := by
  unfold xCrossCode at hx
  unfold yCrossCode at hy
  simp only [findNodePath, quadIdx]
  by_cases h1 : nb.pos.x + nb.size * (1/2 : ℚ) < b.pos.x
  · by_cases h2 : nb.pos.y + nb.size * (1/2 : ℚ) < b.pos.y
    · rw [if_pos h1, if_pos h2, if_pos h1, if_pos h2]
      norm_num [List.getD]
    · have hy2 : ¬ (nb.pos.y + nb.size * (1/2 : ℚ) < b.pos.y + b.size) := by
        rcases not_and_or.mp hy with h | h
        · exact absurd h2 (by simpa using h)
        · exact h
      rw [if_pos h1, if_neg h2, if_neg hy2, if_pos h1, if_neg h2]
      norm_num [List.getD]
  · have hx2 : ¬ (nb.pos.x + nb.size * (1/2 : ℚ) < b.pos.x + b.size) := by
      rcases not_and_or.mp hx with h | h
      · exact absurd h1 (by simpa using h)
      · exact h
    by_cases h2 : nb.pos.y + nb.size * (1/2 : ℚ) < b.pos.y
    · rw [if_neg h1, if_neg hx2, if_pos h2, if_neg h1, if_pos h2]
      norm_num [List.getD]
    · have hy2 : ¬ (nb.pos.y + nb.size * (1/2 : ℚ) < b.pos.y + b.size) := by
        rcases not_and_or.mp hy with h | h
        · exact absurd h2 (by simpa using h)
        · exact h
      rw [if_neg h1, if_neg hx2, if_neg h2, if_neg hy2, if_neg h1, if_neg h2]
      norm_num [List.getD]

theorem quadIdx_lt (nb b : Bounds) : quadIdx nb b < 4 := by
  unfold quadIdx
  split_ifs <;> norm_num

theorem quadIdx_contains (nb b : Bounds) (hcont : containsB nb b)
    (hx : ¬ xCrossCode nb b) (hy : ¬ yCrossCode nb b) :
    containsB (nb.split (quadIdx nb b)) b := by
  have hx' : nb.pos.x + nb.size * (1/2 : ℚ) < b.pos.x ∨
      ¬ (nb.pos.x + nb.size * (1/2 : ℚ) < b.pos.x + b.size) := by
    unfold xCrossCode at hx
    rcases not_and_or.mp hx with h | h
    · exact Or.inl (by simpa using h)
    · exact Or.inr h
  have hy' : nb.pos.y + nb.size * (1/2 : ℚ) < b.pos.y ∨
      ¬ (nb.pos.y + nb.size * (1/2 : ℚ) < b.pos.y + b.size) := by
    unfold yCrossCode at hy
    rcases not_and_or.mp hy with h | h
    · exact Or.inl (by simpa using h)
    · exact Or.inr h
  obtain ⟨hc1, hc2, hc3, hc4⟩ := hcont
  unfold containsB Bounds.split quadIdx
  by_cases h1 : nb.pos.x + nb.size * (1/2 : ℚ) < b.pos.x <;>
    by_cases h2 : nb.pos.y + nb.size * (1/2 : ℚ) < b.pos.y <;>
      simp only [if_pos, if_neg, h1, h2, if_true, if_false] <;>
        norm_num <;>
          refine ⟨?_, ?_, ?_, ?_⟩ <;>
            first
              | linarith
              | (rcases hx' with h | h
                 · linarith
                 · push_neg at h
                   linarith)
              | (rcases hy' with h | h
                 · linarith
                 · push_neg at h
                   linarith)

theorem split_contains_unique (nb b : Bounds) (hsize : 0 < b.size) (j k : Nat)
    (hj : j < 4) (hk : k < 4)
    (hcj : containsB (nb.split j) b) (hck : containsB (nb.split k) b) : j = k := by
  unfold containsB Bounds.split at hcj hck
  interval_cases j <;> interval_cases k <;>
    first
      | rfl
      | (exfalso
         norm_num at hcj hck
         obtain ⟨a1, a2, a3, a4⟩ := hcj
         obtain ⟨b1, b2, b3, b4⟩ := hck
         linarith)

/-- Claim C7, amended: for a node with children, `find_node` stops at the
node exactly when, on some axis, the midline is *at or after* the extent's
origin and strictly before the extent's end — so an extent whose origin
lies exactly on a midline is treated as crossing even though it fits
entirely in the right/top half (the code's right-half test is strict; this
is the only divergence from the claim, see the counterexample).  Otherwise
it descends into the child indexed by the right/top tests, whose quadrant
(for an extent within the node's bounds, of positive size) is the unique
child quadrant fully containing the extent; and on a freshly split node
(four empty quadrant leaves) the same rule routes any extent either to the
now-internal node (when it crosses) or to the unique containing child. -/
theorem spec_c7 (nb : Bounds) (c0 c1 c2 c3 : QNode) (rest : List QNode)
    (ms : List (Nat × Bounds)) (b : Bounds)
    (hcont : containsB nb b) (hsize : 0 < b.size) :
    ((xCrossCode nb b ∨ yCrossCode nb b) →
        findNodePath (QNode.mk nb (c0 :: c1 :: c2 :: c3 :: rest) ms) b = []) ∧
    (¬ xCrossCode nb b → ¬ yCrossCode nb b →
        findNodePath (QNode.mk nb (c0 :: c1 :: c2 :: c3 :: rest) ms) b =
          quadIdx nb b ::
            findNodePath ((c0 :: c1 :: c2 :: c3 :: rest).getD (quadIdx nb b) c0) b ∧
        containsB (nb.split (quadIdx nb b)) b ∧
        ∀ j, j < 4 → containsB (nb.split j) b → j = quadIdx nb b) ∧
    (∀ b' : Bounds,
        ((xCrossCode nb b' ∨ yCrossCode nb b') →
            findNodePath (QNode.mk nb (freshChildren nb) []) b' = []) ∧
        (¬ xCrossCode nb b' → ¬ yCrossCode nb b' →
            findNodePath (QNode.mk nb (freshChildren nb) []) b' = [quadIdx nb b'])) := by
  refine ⟨fun h => findNodePath_stop nb c0 c1 c2 c3 rest ms b h, ?_, ?_⟩
  · intro hx hy
    refine ⟨findNodePath_descend nb c0 c1 c2 c3 rest ms b hx hy,
      quadIdx_contains nb b hcont hx hy, ?_⟩
    intro j hj hcj
    exact split_contains_unique nb b hsize j (quadIdx nb b) hj (quadIdx_lt nb b) hcj
      (quadIdx_contains nb b hcont hx hy)
  · intro b'
    constructor
    · intro h
      exact findNodePath_stop nb _ _ _ _ [] [] b' h
    · intro hx hy
      have hd := findNodePath_descend nb (QNode.mk (nb.split 0) [] [])
        (QNode.mk (nb.split 1) [] []) (QNode.mk (nb.split 2) [] [])
        (QNode.mk (nb.split 3) [] []) [] [] b' hx hy
      have hleaf : findNodePath
          ((QNode.mk (nb.split 0) [] [] :: QNode.mk (nb.split 1) [] [] ::
            QNode.mk (nb.split 2) [] [] :: QNode.mk (nb.split 3) [] [] :: []).getD
            (quadIdx nb b') (QNode.mk (nb.split 0) [] [])) b' = [] := by
        unfold quadIdx
        split_ifs <;> rfl
      rw [show QNode.mk nb (freshChildren nb) [] =
        QNode.mk nb (QNode.mk (nb.split 0) [] [] :: QNode.mk (nb.split 1) [] [] ::
          QNode.mk (nb.split 2) [] [] :: QNode.mk (nb.split 3) [] [] :: []) []
          from rfl]
      rw [hd, hleaf]

/-- Witness for C7: the extent `[0.6, 0.8) × [0.1, 0.3)` inside the unit
root with standard children: it crosses no midline and `find_node` descends
into child 1. -/
theorem spec_c7_witness :
    containsB ⟨⟨0, 0⟩, 1⟩ ⟨⟨3/5, 1/10⟩, 1/5⟩ ∧ (0 : ℚ) < 1/5 ∧
    findNodePath tSplit ⟨⟨3/5, 1/10⟩, 1/5⟩ = [1] := by
  have h := (spec_c7 ⟨⟨0, 0⟩, 1⟩ (QNode.mk ⟨⟨0, 0⟩, 1/2⟩ [] [])
      (QNode.mk ⟨⟨1/2, 0⟩, 1/2⟩ [] []) (QNode.mk ⟨⟨0, 1/2⟩, 1/2⟩ [] [])
      (QNode.mk ⟨⟨1/2, 1/2⟩, 1/2⟩ [] []) [] [] ⟨⟨3/5, 1/10⟩, 1/5⟩
      (by decide) (by decide)).2.1 (by decide) (by decide)
  have h2 : findNodePath tSplit ⟨⟨3/5, 1/10⟩, 1/5⟩ = [1] := by
    rw [show tSplit = QNode.mk ⟨⟨0, 0⟩, 1⟩ (QNode.mk ⟨⟨0, 0⟩, 1/2⟩ [] [] ::
      QNode.mk ⟨⟨1/2, 0⟩, 1/2⟩ [] [] :: QNode.mk ⟨⟨0, 1/2⟩, 1/2⟩ [] [] ::
      QNode.mk ⟨⟨1/2, 1/2⟩, 1/2⟩ [] [] :: []) [] from rfl]
    rw [h.1]
    decide
  exact ⟨by decide, by decide, h2⟩
